import Mathlib

/-!
# Verification of the duplicate/invalid-file removal pipeline (`main.py`)

A shallow embedding of the program's classifier (`get_duplicates`), argument
validation (`valid_arguments`), directory walker (`get_files`) and deletion
executors (`remove_duplicates_files`, `remove_invalid_files`), together with
theorems settling the spec's testable properties.

Conventions of the embedding:

* a file's byte content is a `List Nat`, and `stat`'s size field is the
  content's length;
* the MD5 digest computed by `get_hash` is modelled as the full byte content
  itself: the spec treats hash collisions as negligible, so the digest is an
  injective fingerprint of the content;
* the set of paths currently on disk is a `List String`; `os.remove` is
  `osRemove`, which raises (returns `Except.error`) when the path is absent,
  exactly as the uncaught `OSError` of the source;
* terminal input is a finite list of reply tokens; a confirmation loop that
  exhausts the token list without seeing a recognized token is `blocked`
  (the real program would wait on `input()` forever).
-/

/-- A directory entry as the walker hands it to the classifier: its path plus
the `stat` metadata the program reads (`st_size`, here the content's length,
and `st_mtime`). -/
structure FileEntry where
  path : String
  content : List Nat
  mtime : Nat
  deriving DecidableEq, Repr

/-- The `st_size` field read by `valid_file` (index 6 of `stat`). -/
def statSize (e : FileEntry) : Nat := e.content.length

/-- `valid_file`: a file is valid when its size is strictly positive. -/
def valid_file (e : FileEntry) : Bool := decide (0 < statSize e)

/-- `get_hash`: the MD5 digest of the file's full byte content, modelled as
the content itself (an injective fingerprint; the spec treats collisions as
negligible). -/
def get_hash (e : FileEntry) : List Nat := e.content

/-- The key ordering of `_file_entries.sort(key=lambda entry: entry.stat()[8])`:
compare entries by last-modified timestamp. -/
def mtimeLE (a b : FileEntry) : Prop := a.mtime ≤ b.mtime

instance : DecidableRel mtimeLE := fun a b => Nat.decLe a.mtime b.mtime

instance : IsTotal FileEntry mtimeLE := ⟨fun a b => Nat.le_total a.mtime b.mtime⟩

instance : IsTrans FileEntry mtimeLE := ⟨fun _ _ _ h1 h2 => Nat.le_trans h1 h2⟩

/-- One step of `hash_dict[get_hash(entry.path)].append(entry.path)` on a
`defaultdict(list)`: append the path to the bucket of key `k`, creating the
bucket at the end when the key is new (Python dicts keep keys in insertion
order). -/
def insertGrouped : List (List Nat × List String) → List Nat → String → List (List Nat × List String)
  | [], k, p => [(k, [p])]
  | (k₀, ps) :: rest, k, p =>
    if k₀ = k then (k₀, ps ++ [p]) :: rest
    else (k₀, ps) :: insertGrouped rest k p

/-- The `hash_dict` built by iterating the sorted entries in order. -/
def buildHashDict (l : List FileEntry) : List (List Nat × List String) :=
  l.foldl (fun acc e => insertGrouped acc (get_hash e) e.path) []

/-- `get_duplicates`: sort the entries by mtime, list the paths of zero-size
entries (`_invalid_files`), group the paths by content hash, and keep the
buckets with more than one member (`_duplicate_files`). -/
def get_duplicates (entries : List FileEntry) : List String × List (List String) :=
  let sorted := entries.insertionSort mtimeLE
  let invalid := (sorted.filter (fun e => !valid_file e)).map (fun e => e.path)
  let dict := buildHashDict sorted
  let dups := (dict.map (fun kv => kv.2)).filter (fun g => decide (1 < g.length))
  (invalid, dups)

/-! ## Deletion executors -/

/-- `os.remove`: delete the path when present, raise `OSError` (modelled as
`Except.error`) when it is absent. -/
def osRemove (disk : List String) (p : String) : Except String (List String) :=
  if p ∈ disk then .ok (disk.filter (fun q => decide (q ≠ p))) else .error p

/-- The confirmation loop `res = input(); while res not in ['y', 'n']:
res = input()` over a finite stream of reply tokens: consume tokens until one
is `y` or `n`; `none` when the stream is exhausted (the program would keep
blocking on `input()`). -/
def promptLoop : List String → Option (String × List String)
  | [] => none
  | r :: rest => if r = "y" ∨ r = "n" then some (r, rest) else promptLoop rest

/-- Result of a deletion run: normal completion with the remaining disk and
input stream, an uncaught `OSError` on some path (with the disk state at that
moment), or blocking forever on `input()`. -/
inductive ExecResult where
  | done (disk : List String) (stream : List String)
  | oserr (path : String) (disk : List String)
  | blocked
  deriving DecidableEq, Repr

/-- The per-candidate deletion loop body shared by both executors: with
`_prompt_flag` set, run the confirmation loop and delete on `y` / skip on
`n`; without it, delete unconditionally.  An `OSError` from `os.remove`
propagates uncaught and ends the run. -/
def runCandidates (prompt : Bool) : List String → List String → List String → ExecResult
  | [], disk, stream => .done disk stream
  | p :: ps, disk, stream =>
    if prompt then
      match promptLoop stream with
      | none => .blocked
      | some (r, rest) =>
        if r = "y" then
          match osRemove disk p with
          | .ok d => runCandidates prompt ps d rest
          | .error q => .oserr q disk
        else runCandidates prompt ps disk rest
    else
      match osRemove disk p with
      | .ok d => runCandidates prompt ps d stream
      | .error q => .oserr q disk

/-- `remove_duplicates_files`: for each duplicate group, process every path
except the first (`duplicates[1:]`) with the per-candidate loop body. -/
def remove_duplicates_files (prompt : Bool) : List (List String) → List String → List String → ExecResult
  | [], disk, stream => .done disk stream
  | g :: gs, disk, stream =>
    match runCandidates prompt g.tail disk stream with
    | .done d s => remove_duplicates_files prompt gs d s
    | r => r

/-- `remove_invalid_files`: process every path of the invalid list with the
per-candidate loop body (its source loop body is identical to the duplicate
executor's branch; no head element is skipped). -/
def remove_invalid_files (prompt : Bool) (inv : List String) (disk stream : List String) : ExecResult :=
  runCandidates prompt inv disk stream

/-- The deletion phase of `__main__` in a non-interactive run: classify the
entries, delete the duplicate candidates, then delete the invalid files
(`--invalid-files` set, `--confirmation` unset).  When the duplicate phase
raises, the invalid phase never runs. -/
def main_deletions (entries : List FileEntry) (stream : List String) : ExecResult :=
  match remove_duplicates_files false (get_duplicates entries).2 (entries.map (fun e => e.path)) stream with
  | .done d s => remove_invalid_files false (get_duplicates entries).1 d s
  | r => r

/-! ## Argument validation -/

/-- What the filesystem holds at a given path. -/
inductive PathKind where
  | missing
  | file
  | dir
  deriving DecidableEq, Repr

/-- `'ERROR: Path not found, '` -/
def ERROR_PATH_NOT_FOUND_MSG : String := "ERROR: Path not found, "

/-- `'ERROR: Expected a directory but received a file, '` -/
def INVALID_DIRECTORY_MSG : String := "ERROR: Expected a directory but received a file, "

/-- `'ERROR: Received empty directory'` -/
def EMPTY_DIRECTORY_MSG : String := "ERROR: Received empty directory"

/-- `'Directory is empty'` -/
def DIRECTORY_IS_EMPTY_MSG : String := "Directory is empty"

/-- `os.path.isdir`: true exactly for a directory. -/
def os_path_isdir (k : PathKind) : Bool := decide (k = .dir)

/-- `os.path.exists`: true unless the path is missing. -/
def os_path_exists (k : PathKind) : Bool := decide (k ≠ .missing)

/-- `valid_arguments`: the up-front checks of the root path, in source order
(empty string, then `not os.path.isdir`, then `not os.path.exists`).
Returns the error message printed, when any, and whether validation passed
(`__main__` exits with status 1 on `false`). -/
def valid_arguments (kind : PathKind) (d : String) : Option String × Bool :=
  if d = "" then (some EMPTY_DIRECTORY_MSG, false)
  else if !os_path_isdir kind then (some INVALID_DIRECTORY_MSG, false)
  else if !os_path_exists kind then (some ERROR_PATH_NOT_FOUND_MSG, false)
  else (none, true)

/-! ## Directory walker -/

/-- A directory listing as `os.scandir` yields it: each child is a regular
file or a subdirectory with its own children. -/
inductive DirTree where
  | file (e : FileEntry)
  | subdir (children : List DirTree)

/-- Python truthiness of the value returned by `os.scandir`: it is an
iterator object, and `bool` of an iterator object is `True` no matter whether
the directory has any children. -/
def scandirTruthy (_children : List DirTree) : Bool := true

mutual

/-- One child of the scan loop of `get_files`: a regular file is collected;
a subdirectory is walked recursively when `_recursive` is set and skipped
otherwise. -/
def walkChild : DirTree → Bool → List FileEntry
  | .file e, _ => [e]
  | .subdir cs, r => if r then walkChildren cs r else []

/-- The scan loop of `get_files` over a directory's children. -/
def walkChildren : List DirTree → Bool → List FileEntry
  | [], _ => []
  | c :: rest, r => walkChild c r ++ walkChildren rest r

end

/-- `get_files`: the collected file entries of a directory, paired with
whether the `Directory is empty` notice was printed — the source guards the
notice with `if not dir_entry:` where `dir_entry` is the `os.scandir`
iterator. -/
def get_files (children : List DirTree) (recursive : Bool) : List FileEntry × Bool :=
  (walkChildren children recursive, !scandirTruthy children)

/-! ## Hash-dictionary characterization -/

/-- The paths of the entries of `l` whose digest is `k`, in list order: the
intended contents of bucket `k` of the hash dictionary. -/
def pathsOf (l : List FileEntry) (k : List Nat) : List String :=
  (l.filter (fun e => decide (get_hash e = k))).map (fun e => e.path)

/-- The bucket stored at key `k` of a dictionary, `[]` when the key is
absent. -/
def assocVal (k : List Nat) : List (List Nat × List String) → List String
  | [] => []
  | (k₀, ps) :: rest => if k₀ = k then ps else assocVal k rest

/-- The keys of a dictionary, in storage order. -/
def keysOf (d : List (List Nat × List String)) : List (List Nat) :=
  d.map (fun kv => kv.1)

theorem assocVal_insertGrouped (acc : List (List Nat × List String))
    (k k' : List Nat) (p : String) :
    assocVal k (insertGrouped acc k' p) =
      if k' = k then assocVal k acc ++ [p] else assocVal k acc := by
  induction acc with
  | nil =>
    by_cases h : k' = k <;> simp [insertGrouped, assocVal, h]
  | cons kv rest ih =>
    obtain ⟨k₀, ps⟩ := kv
    simp only [insertGrouped]
    by_cases h1 : k₀ = k'
    · subst h1
      by_cases h2 : k₀ = k
      · subst h2
        simp [assocVal]
      · simp [assocVal, h2]
    · by_cases h2 : k₀ = k
      · subst h2
        have h3 : ¬(k' = k₀) := fun h => h1 h.symm
        simp [assocVal, h1, h3]
      · simp [assocVal, h1, h2, ih]

theorem assocVal_foldl (l : List FileEntry) (acc : List (List Nat × List String))
    (k : List Nat) :
    assocVal k (l.foldl (fun acc e => insertGrouped acc (get_hash e) e.path) acc) =
      assocVal k acc ++ pathsOf l k := by
  induction l generalizing acc with
  | nil => simp [pathsOf]
  | cons e l ih =>
    simp only [List.foldl_cons]
    rw [ih, assocVal_insertGrouped]
    by_cases h : get_hash e = k <;>
      simp [pathsOf, h, List.filter_cons]

theorem assocVal_buildHashDict (l : List FileEntry) (k : List Nat) :
    assocVal k (buildHashDict l) = pathsOf l k := by
  have h := assocVal_foldl l [] k
  simpa [buildHashDict, assocVal] using h

theorem keysOf_insertGrouped (acc : List (List Nat × List String))
    (k : List Nat) (p : String) :
    keysOf (insertGrouped acc k p) =
      if k ∈ keysOf acc then keysOf acc else keysOf acc ++ [k] := by
  induction acc with
  | nil => simp [insertGrouped, keysOf]
  | cons kv rest ih =>
    obtain ⟨k₀, ps⟩ := kv
    by_cases h : k₀ = k
    · subst h
      simp [insertGrouped, keysOf]
    · have h2 : ¬(k = k₀) := fun hh => h hh.symm
      simp only [insertGrouped, if_neg h, keysOf, List.map_cons]
      simp only [keysOf] at ih
      rw [ih]
      by_cases hk : k ∈ List.map (fun kv => kv.1) rest
      · rw [if_pos hk, if_pos (List.mem_cons_of_mem _ hk)]
      · rw [if_neg hk, if_neg (by simp [List.mem_cons, h2, hk])]
        simp

theorem keysOf_foldl_nodup (l : List FileEntry) (acc : List (List Nat × List String))
    (h : (keysOf acc).Nodup) :
    (keysOf (l.foldl (fun acc e => insertGrouped acc (get_hash e) e.path) acc)).Nodup := by
  induction l generalizing acc with
  | nil => exact h
  | cons e l ih =>
    simp only [List.foldl_cons]
    apply ih
    rw [keysOf_insertGrouped]
    split
    · exact h
    · next hk =>
      rw [List.nodup_append]
      exact ⟨h, List.nodup_singleton _, by simpa using hk⟩

theorem keysOf_buildHashDict_nodup (l : List FileEntry) :
    (keysOf (buildHashDict l)).Nodup :=
  keysOf_foldl_nodup l [] (by simp [keysOf])

theorem assocVal_mem (d : List (List Nat × List String)) (k : List Nat)
    (h : assocVal k d ≠ []) : (k, assocVal k d) ∈ d := by
  induction d with
  | nil => simp [assocVal] at h
  | cons kv rest ih =>
    obtain ⟨k₀, ps⟩ := kv
    by_cases hk : k₀ = k
    · subst hk
      simp [assocVal]
    · simp only [assocVal, if_neg hk] at h ⊢
      exact List.mem_cons_of_mem _ (ih h)

theorem mem_assocVal_of_nodup (d : List (List Nat × List String))
    (hnd : (keysOf d).Nodup) (k : List Nat) (ps : List String)
    (h : (k, ps) ∈ d) : assocVal k d = ps := by
  induction d with
  | nil => cases h
  | cons kv rest ih =>
    obtain ⟨k₀, ps₀⟩ := kv
    simp only [keysOf, List.map_cons, List.nodup_cons] at hnd
    rcases List.mem_cons.mp h with heq | htail
    · obtain ⟨hk, hp⟩ := Prod.mk.injEq .. ▸ heq
      simp [assocVal, hk.symm, hp.symm]
    · have hkmem : k ∈ keysOf rest := by
        simp only [keysOf, List.mem_map]
        exact ⟨(k, ps), htail, rfl⟩
      have hne : ¬(k₀ = k) := fun hh => hnd.1 (hh ▸ hkmem)
      simp only [assocVal, if_neg hne]
      exact ih hnd.2 htail

theorem insertGrouped_vals_ne_nil (acc : List (List Nat × List String))
    (k : List Nat) (p : String) (h : ∀ kv ∈ acc, kv.2 ≠ []) :
    ∀ kv ∈ insertGrouped acc k p, kv.2 ≠ [] := by
  induction acc with
  | nil =>
    intro kv hkv
    simp [insertGrouped] at hkv
    simp [hkv]
  | cons kv₀ rest ih =>
    obtain ⟨k₀, ps⟩ := kv₀
    intro kv hkv
    simp only [insertGrouped] at hkv
    split at hkv
    · rcases List.mem_cons.mp hkv with heq | htail
      · simp [heq]
      · exact h kv (List.mem_cons_of_mem _ htail)
    · rcases List.mem_cons.mp hkv with heq | htail
      · exact heq ▸ h (k₀, ps) (List.mem_cons_self _ _)
      · exact ih (fun kv' hkv' => h kv' (List.mem_cons_of_mem _ hkv')) kv htail

theorem buildHashDict_vals_ne_nil (l : List FileEntry) :
    ∀ kv ∈ buildHashDict l, kv.2 ≠ [] := by
  suffices h : ∀ acc, (∀ kv ∈ acc, kv.2 ≠ []) →
      ∀ kv ∈ l.foldl (fun acc e => insertGrouped acc (get_hash e) e.path) acc, kv.2 ≠ [] by
    exact h [] (by simp)
  induction l with
  | nil => intro acc hacc; simpa using hacc
  | cons e l ih =>
    intro acc hacc
    simp only [List.foldl_cons]
    exact ih _ (insertGrouped_vals_ne_nil acc _ _ hacc)

theorem mem_buildHashDict_iff (l : List FileEntry) (k : List Nat) (ps : List String) :
    (k, ps) ∈ buildHashDict l ↔ ps = pathsOf l k ∧ ps ≠ [] := by
  constructor
  · intro h
    have h1 := mem_assocVal_of_nodup _ (keysOf_buildHashDict_nodup l) k ps h
    rw [assocVal_buildHashDict] at h1
    exact ⟨h1.symm, buildHashDict_vals_ne_nil l (k, ps) h⟩
  · rintro ⟨rfl, hne⟩
    have h1 : assocVal k (buildHashDict l) ≠ [] := by
      rw [assocVal_buildHashDict]; exact hne
    have h2 := assocVal_mem (buildHashDict l) k h1
    rwa [assocVal_buildHashDict] at h2

theorem mem_pathsOf (l : List FileEntry) (k : List Nat) (p : String) :
    p ∈ pathsOf l k ↔ ∃ e ∈ l, get_hash e = k ∧ e.path = p := by
  simp only [pathsOf, List.mem_map, List.mem_filter, decide_eq_true_eq]
  constructor
  · rintro ⟨e, ⟨he, hk⟩, hp⟩
    exact ⟨e, he, hk, hp⟩
  · rintro ⟨e, he, hk, hp⟩
    exact ⟨e, ⟨he, hk⟩, hp⟩

theorem mem_dups_iff (entries : List FileEntry) (g : List String) :
    g ∈ (get_duplicates entries).2 ↔
      (∃ k, g = pathsOf (entries.insertionSort mtimeLE) k) ∧ 1 < g.length := by
  simp only [get_duplicates, List.mem_filter, List.mem_map, decide_eq_true_eq]
  constructor
  · rintro ⟨⟨⟨k, ps⟩, hmem, rfl⟩, hlen⟩
    have h := (mem_buildHashDict_iff _ k ps).mp hmem
    exact ⟨⟨k, h.1⟩, hlen⟩
  · rintro ⟨⟨k, rfl⟩, hlen⟩
    refine ⟨⟨(k, pathsOf (entries.insertionSort mtimeLE) k), ?_, rfl⟩, hlen⟩
    refine (mem_buildHashDict_iff _ k _).mpr ⟨rfl, ?_⟩
    intro hnil
    rw [hnil] at hlen
    simp at hlen

/-! ## Classifier facts -/

theorem one_lt_length_of_two_mem {α : Type} {l : List α} {a b : α}
    (ha : a ∈ l) (hb : b ∈ l) (hab : a ≠ b) : 1 < l.length := by
  cases l with
  | nil => cases ha
  | cons x xs =>
    cases xs with
    | nil =>
      rw [List.mem_singleton] at ha hb
      exact absurd (ha.trans hb.symm) hab
    | cons y ys =>
      simp only [List.length_cons]
      omega

theorem mem_invalid_iff (entries : List FileEntry) (p : String) :
    p ∈ (get_duplicates entries).1 ↔ ∃ e ∈ entries, e.path = p ∧ statSize e = 0 := by
  simp only [get_duplicates, List.mem_map, List.mem_filter,
    List.mem_insertionSort, valid_file, Bool.not_eq_true', decide_eq_false_iff_not,
    Nat.not_lt, Nat.le_zero]
  constructor
  · rintro ⟨e, ⟨he, hz⟩, hp⟩
    exact ⟨e, he, hp, hz⟩
  · rintro ⟨e, he, hp, hz⟩
    exact ⟨e, ⟨he, hz⟩, hp⟩

theorem same_content_common_group (entries : List FileEntry)
    (hinj : ∀ e1 ∈ entries, ∀ e2 ∈ entries, e1.path = e2.path → e1 = e2)
    {e1 e2 : FileEntry} (h1 : e1 ∈ entries) (h2 : e2 ∈ entries)
    (hne : e1 ≠ e2) (hc : e1.content = e2.content) :
    ∃ g ∈ (get_duplicates entries).2, e1.path ∈ g ∧ e2.path ∈ g := by
  have hs1 : e1 ∈ entries.insertionSort mtimeLE := (List.mem_insertionSort mtimeLE).mpr h1
  have hs2 : e2 ∈ entries.insertionSort mtimeLE := (List.mem_insertionSort mtimeLE).mpr h2
  have hp1 : e1.path ∈ pathsOf (entries.insertionSort mtimeLE) (get_hash e1) :=
    (mem_pathsOf _ _ _).mpr ⟨e1, hs1, rfl, rfl⟩
  have hp2 : e2.path ∈ pathsOf (entries.insertionSort mtimeLE) (get_hash e1) :=
    (mem_pathsOf _ _ _).mpr ⟨e2, hs2, hc.symm, rfl⟩
  have hpe : e1.path ≠ e2.path := fun h => hne (hinj e1 h1 e2 h2 h)
  refine ⟨pathsOf (entries.insertionSort mtimeLE) (get_hash e1), ?_, hp1, hp2⟩
  exact (mem_dups_iff entries _).mpr
    ⟨⟨get_hash e1, rfl⟩, one_lt_length_of_two_mem hp1 hp2 hpe⟩

/-- **C1.** For every sequence of file entries (with paths identifying
entries), two paths are placed in the same duplicate group if and only if
their full byte content is identical (the digest being an injective
fingerprint models the no-collision assumption), every group returned has at
least two members, and the first member of each group has the earliest
last-modified timestamp among the group's members. -/
theorem classifier_duplicate_groups_correct (entries : List FileEntry)
    (hinj : ∀ e1 ∈ entries, ∀ e2 ∈ entries, e1.path = e2.path → e1 = e2) :
    (∀ g ∈ (get_duplicates entries).2, 2 ≤ g.length) ∧
    (∀ g ∈ (get_duplicates entries).2, ∀ e1 ∈ entries, ∀ e2 ∈ entries,
      e1.path ∈ g → e2.path ∈ g → e1.content = e2.content) ∧
    (∀ e1 ∈ entries, ∀ e2 ∈ entries, e1 ≠ e2 → e1.content = e2.content →
      ∃ g ∈ (get_duplicates entries).2, e1.path ∈ g ∧ e2.path ∈ g) ∧
    (∀ g ∈ (get_duplicates entries).2, ∀ p rest, g = p :: rest →
      ∀ e1 ∈ entries, ∀ e2 ∈ entries, e1.path = p → e2.path ∈ g →
        e1.mtime ≤ e2.mtime) := by
  refine ⟨?_, ?_, ?_, ?_⟩
  · intro g hg
    exact ((mem_dups_iff entries g).mp hg).2
  · intro g hg e1 he1 e2 he2 hp1 hp2
    obtain ⟨⟨k, rfl⟩, -⟩ := (mem_dups_iff entries g).mp hg
    obtain ⟨f1, hf1s, hf1k, hf1p⟩ := (mem_pathsOf _ _ _).mp hp1
    obtain ⟨f2, hf2s, hf2k, hf2p⟩ := (mem_pathsOf _ _ _).mp hp2
    rw [List.mem_insertionSort] at hf1s hf2s
    have he1f : f1 = e1 := hinj f1 hf1s e1 he1 hf1p
    have he2f : f2 = e2 := hinj f2 hf2s e2 he2 hf2p
    have hk1 : e1.content = k := by rw [← he1f]; exact hf1k
    have hk2 : e2.content = k := by rw [← he2f]; exact hf2k
    rw [hk1, hk2]
  · intro e1 he1 e2 he2 hne hc
    exact same_content_common_group entries hinj he1 he2 hne hc
  · intro g hg p rest hrest e1 he1 e2 he2 hp1 hp2
    obtain ⟨⟨k, hk⟩, -⟩ := (mem_dups_iff entries g).mp hg
    have hsorted : List.Sorted mtimeLE (entries.insertionSort mtimeLE) :=
      List.sorted_insertionSort mtimeLE entries
    have hF : List.Pairwise mtimeLE
        ((entries.insertionSort mtimeLE).filter (fun e => decide (get_hash e = k))) :=
      hsorted.filter _
    have hcons : ((entries.insertionSort mtimeLE).filter
        (fun e => decide (get_hash e = k))).map (fun e => e.path) = p :: rest := by
      rw [hk] at hrest
      simpa [pathsOf] using hrest
    obtain ⟨f0, F', hFeq, hf0p, hmap⟩ := List.map_eq_cons_iff.mp hcons
    have hf0mem : f0 ∈ entries := by
      have : f0 ∈ (entries.insertionSort mtimeLE).filter
          (fun e => decide (get_hash e = k)) := by
        rw [hFeq]; exact List.mem_cons_self _ _
      have := List.mem_of_mem_filter this
      rwa [List.mem_insertionSort] at this
    have he1f : e1 = f0 := hinj e1 he1 f0 hf0mem (hp1.trans hf0p.symm)
    rw [hk] at hp2
    obtain ⟨f, hfs, hfk, hfp⟩ := (mem_pathsOf _ _ _).mp hp2
    have hfmem : f ∈ entries := by
      rw [List.mem_insertionSort] at hfs
      exact hfs
    have he2f : f = e2 := hinj f hfmem e2 he2 hfp
    have hfF : f ∈ (entries.insertionSort mtimeLE).filter
        (fun e => decide (get_hash e = k)) :=
      List.mem_filter.mpr ⟨hfs, by simp [hfk]⟩
    rw [hFeq] at hfF
    rcases List.mem_cons.mp hfF with heq | htail
    · rw [he1f, heq.symm, he2f]
    · rw [hFeq, List.pairwise_cons] at hF
      have := hF.1 f htail
      rw [he1f, ← he2f]
      exact this

/-- Entries for checking the classifier theorems on concrete input: two
duplicates (the later-modified first) and one unique file. -/
def wEntriesC1 : List FileEntry :=
  [⟨"a", [1], 5⟩, ⟨"b", [1], 3⟩, ⟨"c", [2], 7⟩]

/-- Witness for C1: the hypotheses hold at `wEntriesC1` and the theorem
applies there. -/
theorem classifier_duplicate_groups_correct_witness :
    (∀ e1 ∈ wEntriesC1, ∀ e2 ∈ wEntriesC1, e1.path = e2.path → e1 = e2) ∧
    (∀ g ∈ (get_duplicates wEntriesC1).2, 2 ≤ g.length) :=
  ⟨by decide, (classifier_duplicate_groups_correct wEntriesC1 (by decide)).1⟩

/-- **C8.** A zero-size entry's path always lands in the invalid list, the
invalid list holds only zero-size entries' paths, and zero-size entries still
participate in hashing: two distinct zero-byte files form a duplicate group
together while also being invalid — the two classifications are
independent. -/
theorem classifier_zero_byte_independent (entries : List FileEntry)
    (hinj : ∀ e1 ∈ entries, ∀ e2 ∈ entries, e1.path = e2.path → e1 = e2) :
    (∀ e ∈ entries, statSize e = 0 → e.path ∈ (get_duplicates entries).1) ∧
    (∀ p ∈ (get_duplicates entries).1, ∃ e ∈ entries, e.path = p ∧ statSize e = 0) ∧
    (∀ e1 ∈ entries, ∀ e2 ∈ entries, e1 ≠ e2 → statSize e1 = 0 → statSize e2 = 0 →
      ∃ g ∈ (get_duplicates entries).2, e1.path ∈ g ∧ e2.path ∈ g ∧
        e1.path ∈ (get_duplicates entries).1) := by
  refine ⟨?_, ?_, ?_⟩
  · intro e he hz
    exact (mem_invalid_iff entries _).mpr ⟨e, he, rfl, hz⟩
  · intro p hp
    exact (mem_invalid_iff entries p).mp hp
  · intro e1 he1 e2 he2 hne hz1 hz2
    have hc : e1.content = e2.content := by
      have h1 := List.length_eq_zero.mp hz1
      have h2 := List.length_eq_zero.mp hz2
      rw [h1, h2]
    obtain ⟨g, hg, hp1, hp2⟩ := same_content_common_group entries hinj he1 he2 hne hc
    exact ⟨g, hg, hp1, hp2, (mem_invalid_iff entries _).mpr ⟨e1, he1, rfl, hz1⟩⟩

/-- Entries for checking the zero-byte theorem on concrete input: two
zero-byte files. -/
def wEntriesC8 : List FileEntry := [⟨"a", [], 5⟩, ⟨"b", [], 3⟩]

/-- Witness for C8: the hypotheses hold at `wEntriesC8` and the theorem
applies there. -/
theorem classifier_zero_byte_independent_witness :
    (∀ e1 ∈ wEntriesC8, ∀ e2 ∈ wEntriesC8, e1.path = e2.path → e1 = e2) ∧
    (∀ e ∈ wEntriesC8, statSize e = 0 → e.path ∈ (get_duplicates wEntriesC8).1) :=
  ⟨by decide, (classifier_zero_byte_independent wEntriesC8 (by decide)).1⟩

/-! ## Deletion executor facts -/

theorem filter_ne_filter_cons (disk : List String) (p : String) (ps : List String) :
    (disk.filter (fun q => decide (q ≠ p))).filter (fun q => decide (q ∉ ps)) =
      disk.filter (fun q => decide (q ∉ p :: ps)) := by
  rw [List.filter_filter]
  apply List.filter_congr
  intro a _
  by_cases h1 : a = p <;> by_cases h2 : a ∈ ps <;> simp [h1, h2, List.mem_cons]

theorem runCandidates_noprompt_done (ps : List String) (disk stream d s : List String)
    (h : runCandidates false ps disk stream = .done d s) :
    d = disk.filter (fun q => decide (q ∉ ps)) ∧ s = stream := by
  induction ps generalizing disk with
  | nil =>
    simp only [runCandidates, ExecResult.done.injEq] at h
    exact ⟨by simp [h.1.symm], h.2.symm⟩
  | cons p ps ih =>
    by_cases hp : p ∈ disk
    · simp only [runCandidates, osRemove, if_pos hp, Bool.false_eq_true, if_false] at h
      obtain ⟨hd, hs⟩ := ih _ h
      rw [hd, filter_ne_filter_cons]
      exact ⟨rfl, hs⟩
    · simp [runCandidates, osRemove, hp] at h

theorem runCandidates_noprompt_ok (ps disk stream : List String)
    (hnd : ps.Nodup) (hsub : ∀ p ∈ ps, p ∈ disk) :
    runCandidates false ps disk stream =
      .done (disk.filter (fun q => decide (q ∉ ps))) stream := by
  induction ps generalizing disk with
  | nil => simp [runCandidates]
  | cons p ps ih =>
    have hp : p ∈ disk := hsub p (List.mem_cons_self _ _)
    have hnm : p ∉ ps := (List.nodup_cons.mp hnd).1
    have hsub' : ∀ q ∈ ps, q ∈ disk.filter (fun x => decide (x ≠ p)) := by
      intro q hq
      refine List.mem_filter.mpr ⟨hsub q (List.mem_cons_of_mem _ hq), ?_⟩
      have : q ≠ p := fun hqp => hnm (hqp ▸ hq)
      simp [this]
    simp only [runCandidates, osRemove, if_pos hp, Bool.false_eq_true, if_false]
    rw [ih _ ((List.nodup_cons.mp hnd).2) hsub', filter_ne_filter_cons]

theorem runCandidates_noprompt_missing (ps disk stream : List String)
    (h : ∃ p ∈ ps, p ∉ disk) :
    ∃ e d, runCandidates false ps disk stream = .oserr e d := by
  induction ps generalizing disk with
  | nil =>
    obtain ⟨p, hp, -⟩ := h
    cases hp
  | cons q ps ih =>
    by_cases hq : q ∈ disk
    · obtain ⟨p, hp, hpd⟩ := h
      rcases List.mem_cons.mp hp with rfl | hps
      · exact absurd hq hpd
      · have hpd' : p ∉ disk.filter (fun x => decide (x ≠ q)) :=
          fun hmem => hpd (List.mem_of_mem_filter hmem)
        obtain ⟨e, d, hed⟩ := ih _ ⟨p, hps, hpd'⟩
        refine ⟨e, d, ?_⟩
        simp only [runCandidates, osRemove, if_pos hq, Bool.false_eq_true, if_false]
        exact hed
    · exact ⟨q, disk, by simp [runCandidates, osRemove, hq]⟩

theorem runCandidates_prompt_all_neg (ps disk stream : List String)
    (hall : ∀ r ∈ stream, r = "n") (hlen : ps.length ≤ stream.length) :
    runCandidates true ps disk stream = .done disk (stream.drop ps.length) := by
  induction ps generalizing stream with
  | nil => simp [runCandidates]
  | cons p ps ih =>
    cases stream with
    | nil => simp at hlen
    | cons r rest =>
      have hr : r = "n" := hall r (List.mem_cons_self _ _)
      subst hr
      have h1 : promptLoop ("n" :: rest) = some ("n", rest) := by simp [promptLoop]
      simp only [runCandidates, h1, if_true]
      rw [if_neg (by decide)]
      rw [ih rest (fun x hx => hall x (List.mem_cons_of_mem _ hx)) (by simpa using hlen)]
      simp

/-- **C2.** Running the duplicate executor with `prompt=false` on a group
with at least two members and all its paths on disk removes exactly the
non-first members and retains the first. -/
theorem dup_group_noprompt_deletes_rest (p0 : String) (rest disk stream : List String)
    (hN : rest ≠ []) (hnd : (p0 :: rest).Nodup) (hsub : ∀ p ∈ p0 :: rest, p ∈ disk) :
    remove_duplicates_files false [p0 :: rest] disk stream =
      .done (disk.filter (fun q => decide (q ∉ rest))) stream ∧
    p0 ∈ disk.filter (fun q => decide (q ∉ rest)) ∧
    (∀ p ∈ rest, p ∉ disk.filter (fun q => decide (q ∉ rest))) ∧
    (∀ q, q ∈ disk.filter (fun q => decide (q ∉ rest)) ↔ q ∈ disk ∧ q ∉ rest) := by
  have hnd' : rest.Nodup := (List.nodup_cons.mp hnd).2
  have hsub' : ∀ p ∈ rest, p ∈ disk := fun p hp => hsub p (List.mem_cons_of_mem _ hp)
  have hrun := runCandidates_noprompt_ok rest disk stream hnd' hsub'
  refine ⟨?_, ?_, ?_, ?_⟩
  · simp [remove_duplicates_files, List.tail_cons, hrun]
  · exact List.mem_filter.mpr
      ⟨hsub p0 (List.mem_cons_self _ _), by simp [(List.nodup_cons.mp hnd).1]⟩
  · intro p hp hmem
    have h := (List.mem_filter.mp hmem).2
    simp only [decide_eq_true_eq] at h
    exact h hp
  · intro q
    simp [List.mem_filter]

/-- Witness for C2 at a concrete group, disk and stream. -/
theorem dup_group_noprompt_deletes_rest_witness :
    remove_duplicates_files false [["a", "b"]] ["a", "b"] [] = .done ["a"] [] := by
  rw [(dup_group_noprompt_deletes_rest "a" ["b"] ["a", "b"] []
    (by decide) (by decide) (by decide)).1]
  decide

/-- **C3 counterexample.** Deleting group `[a, b, c]` when candidate `b` has
vanished from disk makes the executor propagate the `OSError` and abort: the
result is an uncaught error at `b`, not a per-path failure report followed by
processing of `c`. -/
theorem dup_delete_abort_counterexample :
    remove_duplicates_files false [["a", "b", "c"]] ["a", "c"] [] =
      .oserr "b" ["a", "c"] := by decide

/-- **C3 amended.** If any candidate of a duplicate group is absent from
disk, the non-interactive executor ends in an uncaught `OSError` instead of
continuing with the remaining candidates. -/
theorem dup_delete_aborts_on_missing (g : List String) (disk stream : List String)
    (h : ∃ p ∈ g.tail, p ∉ disk) :
    ∃ e d, remove_duplicates_files false [g] disk stream = .oserr e d := by
  obtain ⟨e, d, hed⟩ := runCandidates_noprompt_missing g.tail disk stream h
  exact ⟨e, d, by simp [remove_duplicates_files, hed]⟩

/-- Witness for the amended C3 at a concrete input. -/
theorem dup_delete_aborts_on_missing_witness :
    ∃ e d, remove_duplicates_files false [["a", "b", "c"]] ["x"] [] = .oserr e d :=
  dup_delete_aborts_on_missing ["a", "b", "c"] ["x"] [] ⟨"b", by decide, by decide⟩

/-! ## Confirmation loop facts -/

theorem promptLoop_none_iff (s : List String) :
    promptLoop s = none ↔ ∀ r ∈ s, ¬(r = "y" ∨ r = "n") := by
  induction s with
  | nil => simp [promptLoop]
  | cons r rest ih =>
    by_cases h : r = "y" ∨ r = "n"
    · simp only [promptLoop, if_pos h]
      constructor
      · intro hcontr
        exact absurd hcontr (by simp)
      · intro hall
        exact absurd h (hall r (List.mem_cons_self _ _))
    · simp only [promptLoop, if_neg h]
      rw [ih]
      constructor
      · intro hall q hq
        rcases List.mem_cons.mp hq with rfl | hq'
        · exact h
        · exact hall q hq'
      · intro hall q hq
        exact hall q (List.mem_cons_of_mem _ hq)

theorem promptLoop_some_first (s : List String) (t : String) (rest : List String)
    (h : promptLoop s = some (t, rest)) :
    (t = "y" ∨ t = "n") ∧
      ∃ pre, s = pre ++ t :: rest ∧ ∀ q ∈ pre, ¬(q = "y" ∨ q = "n") := by
  induction s generalizing t rest with
  | nil => simp [promptLoop] at h
  | cons r s' ih =>
    by_cases hr : r = "y" ∨ r = "n"
    · simp only [promptLoop, if_pos hr, Option.some.injEq, Prod.mk.injEq] at h
      obtain ⟨rfl, rfl⟩ := h
      exact ⟨hr, [], rfl, by simp⟩
    · simp only [promptLoop, if_neg hr] at h
      obtain ⟨htok, pre, heq, hpre⟩ := ih t rest h
      refine ⟨htok, r :: pre, by rw [List.cons_append, heq], ?_⟩
      intro q hq
      rcases List.mem_cons.mp hq with rfl | hq'
      · exact hr
      · exact hpre q hq'

theorem runCandidates_single_prompt (s : List String) (t : String) (rest : List String)
    (p : String) (disk : List String)
    (h : promptLoop s = some (t, rest)) (hp : p ∈ disk) :
    runCandidates true [p] disk s =
      if t = "y" then .done (disk.filter (fun q => decide (q ≠ p))) rest
      else .done disk rest := by
  by_cases ht : t = "y" <;> simp [runCandidates, h, osRemove, hp, ht]

/-- **C6.** The confirmation loop, over a finite input stream, terminates if
and only if the stream contains one of the tokens `y`/`n`; it re-prompts past
every other token, and for a deletion candidate present on disk the outcome
— delete versus skip — is decided by the first recognized token. -/
theorem confirm_loop_spec (s : List String) :
    (promptLoop s = none ↔ ∀ r ∈ s, ¬(r = "y" ∨ r = "n")) ∧
    (∀ t rest, promptLoop s = some (t, rest) →
      (t = "y" ∨ t = "n") ∧
        ∃ pre, s = pre ++ t :: rest ∧ ∀ q ∈ pre, ¬(q = "y" ∨ q = "n")) ∧
    (∀ t rest p disk, promptLoop s = some (t, rest) → p ∈ disk →
      runCandidates true [p] disk s =
        if t = "y" then .done (disk.filter (fun q => decide (q ≠ p))) rest
        else .done disk rest) :=
  ⟨promptLoop_none_iff s,
   fun t rest h => promptLoop_some_first s t rest h,
   fun t rest p disk h hp => runCandidates_single_prompt s t rest p disk h hp⟩

/-- Witness for C6: an unrecognized token is skipped, and the first
recognized token `n` skips the deletion. -/
theorem confirm_loop_spec_witness :
    promptLoop ["x", "n"] = some ("n", []) ∧
    runCandidates true ["a"] ["a", "b"] ["x", "n"] = .done ["a", "b"] [] := by
  refine ⟨by decide, ?_⟩
  rw [(confirm_loop_spec ["x", "n"]).2.2 "n" [] "a" ["a", "b"] (by decide) (by decide)]
  decide

/-- The number of deletion candidates of a list of duplicate groups: every
member except each group's first. -/
def numCandidates (dups : List (List String)) : Nat :=
  (dups.map (fun g => g.tail.length)).sum

/-- **C7.** With `prompt=true` and every confirmation answered `n`, the
duplicate executor deletes nothing: the disk is returned unchanged. -/
theorem prompt_all_negative_no_deletion (dups : List (List String))
    (disk stream : List String)
    (hall : ∀ r ∈ stream, r = "n") (hlen : numCandidates dups ≤ stream.length) :
    remove_duplicates_files true dups disk stream =
      .done disk (stream.drop (numCandidates dups)) := by
  induction dups generalizing stream with
  | nil => simp [remove_duplicates_files, numCandidates]
  | cons g gs ih =>
    have hnum : numCandidates (g :: gs) = g.tail.length + numCandidates gs := by
      simp [numCandidates]
    have h1 : g.tail.length ≤ stream.length := by
      rw [hnum] at hlen; omega
    have hrc := runCandidates_prompt_all_neg g.tail disk stream hall h1
    simp only [remove_duplicates_files, hrc]
    have hall' : ∀ r ∈ stream.drop g.tail.length, r = "n" :=
      fun r hr => hall r (List.drop_subset _ _ hr)
    have hlen' : numCandidates gs ≤ (stream.drop g.tail.length).length := by
      rw [List.length_drop]
      rw [hnum] at hlen
      omega
    rw [ih _ hall' hlen', List.drop_drop, hnum]

/-- Witness for C7: one group, one candidate, one `n` answer. -/
theorem prompt_all_negative_no_deletion_witness :
    remove_duplicates_files true [["a", "b"]] ["a", "b"] ["n"] =
      .done ["a", "b"] [] := by
  rw [prompt_all_negative_no_deletion [["a", "b"]] ["a", "b"] ["n"]
    (by decide) (by decide)]
  decide

/-- **C10.** Running the invalid-file executor with `prompt=false` on a
non-empty invalid list whose paths are all on disk removes every listed path
— including the earliest-modified one; no representative is retained. -/
theorem invalid_noprompt_deletes_all (inv disk stream : List String)
    (hne : inv ≠ []) (hnd : inv.Nodup) (hsub : ∀ p ∈ inv, p ∈ disk) :
    remove_invalid_files false inv disk stream =
      .done (disk.filter (fun q => decide (q ∉ inv))) stream ∧
    ∀ p ∈ inv, p ∉ disk.filter (fun q => decide (q ∉ inv)) := by
  refine ⟨runCandidates_noprompt_ok inv disk stream hnd hsub, ?_⟩
  intro p hp hmem
  have h := (List.mem_filter.mp hmem).2
  simp only [decide_eq_true_eq] at h
  exact h hp

/-- Witness for C10 at a concrete invalid list and disk. -/
theorem invalid_noprompt_deletes_all_witness :
    remove_invalid_files false ["u", "v"] ["u", "v", "w"] [] = .done ["w"] [] := by
  rw [(invalid_noprompt_deletes_all ["u", "v"] ["u", "v", "w"] []
    (by decide) (by decide) (by decide)).1]
  decide

/-! ## Argument validation and walker facts -/

/-- **C4 (code evaluation).** A nonexistent root path is rejected with the
not-a-directory message, not the path-not-found one: `os.path.isdir` is
checked before `os.path.exists`, so `os.path.isdir` already fails on a
missing path and the dedicated path-not-found branch is unreachable for
every input. -/
theorem path_not_found_reports_wrong_error :
    valid_arguments .missing "/no/such/path" = (some INVALID_DIRECTORY_MSG, false) ∧
    INVALID_DIRECTORY_MSG ≠ ERROR_PATH_NOT_FOUND_MSG ∧
    ∀ k d, (valid_arguments k d).1 ≠ some ERROR_PATH_NOT_FOUND_MSG := by
  refine ⟨by decide, by decide, ?_⟩
  intro k d
  simp only [valid_arguments]
  by_cases hd : d = ""
  · rw [if_pos hd]
    decide
  · rw [if_neg hd]
    cases k <;> decide

/-- **C5 (code evaluation).** Scanning a directory with zero children yields
the empty entry sequence, but the `Directory is empty` notice is never
printed: the source guards it with the truthiness of the `os.scandir`
iterator object, which is truthy even for an empty directory. -/
theorem empty_directory_no_notice (r : Bool) :
    get_files [] r = ([], false) := by
  cases r <;> rfl

/-! ## Pipeline idempotence -/

theorem get_duplicates_fst (entries : List FileEntry) :
    (get_duplicates entries).1 =
      ((entries.insertionSort mtimeLE).filter (fun e => !valid_file e)).map
        (fun e => e.path) := rfl

theorem get_duplicates_snd (entries : List FileEntry) :
    (get_duplicates entries).2 =
      ((buildHashDict (entries.insertionSort mtimeLE)).map (fun kv => kv.2)).filter
        (fun g => decide (1 < g.length)) := rfl

theorem path_inj_of_nodup_paths (entries : List FileEntry)
    (hnd : (entries.map (fun e => e.path)).Nodup) :
    ∀ e1 ∈ entries, ∀ e2 ∈ entries, e1.path = e2.path → e1 = e2 := by
  intro e1 h1 e2 h2 h
  exact List.inj_on_of_nodup_map hnd h1 h2 h

theorem pathsOf_nodup (l : List FileEntry) (k : List Nat)
    (hnd : (l.map (fun e => e.path)).Nodup) : (pathsOf l k).Nodup := by
  have hsub : ((l.filter (fun e => decide (get_hash e = k))).map (fun e => e.path)).Sublist
      (l.map (fun e => e.path)) :=
    List.Sublist.map _ (List.filter_sublist l)
  exact List.Nodup.sublist hsub hnd

theorem remove_duplicates_noprompt_done (dups : List (List String))
    (disk stream d s : List String)
    (h : remove_duplicates_files false dups disk stream = .done d s) :
    d = disk.filter (fun q => decide (∀ g ∈ dups, q ∉ g.tail)) ∧ s = stream := by
  induction dups generalizing disk with
  | nil =>
    simp only [remove_duplicates_files, ExecResult.done.injEq] at h
    refine ⟨?_, h.2.symm⟩
    rw [← h.1]
    exact (List.filter_eq_self.mpr (by simp)).symm
  | cons g gs ih =>
    simp only [remove_duplicates_files] at h
    cases hrc : runCandidates false g.tail disk stream with
    | done d1 s1 =>
      simp only [hrc] at h
      obtain ⟨hd1, hs1⟩ := runCandidates_noprompt_done _ _ _ _ _ hrc
      subst hs1
      obtain ⟨hd, hs⟩ := ih _ h
      refine ⟨?_, hs⟩
      rw [hd, hd1, List.filter_filter]
      apply List.filter_congr
      intro a _
      by_cases h1 : a ∈ g.tail <;> by_cases h2 : ∀ g' ∈ gs, a ∉ g'.tail <;>
        simp [h1, h2, List.forall_mem_cons]
    | oserr e dd =>
      simp only [hrc] at h
      simp at h
    | blocked =>
      simp only [hrc] at h
      simp at h

/-- **C9.** After a completed non-interactive run that performed both
duplicate deletion and invalid-file deletion, the classifier applied to the
surviving entries reports an empty invalid list and zero duplicate groups:
the pipeline is idempotent. -/
theorem pipeline_idempotent (entries : List FileEntry)
    (hnd : (entries.map (fun e => e.path)).Nodup)
    (d s stream : List String)
    (hdone : main_deletions entries stream = .done d s) :
    get_duplicates (entries.filter (fun e => decide (e.path ∈ d))) = ([], []) := by
  have hinj := path_inj_of_nodup_paths entries hnd
  unfold main_deletions at hdone
  cases hrd : remove_duplicates_files false (get_duplicates entries).2
      (entries.map (fun e => e.path)) stream with
  | oserr e dd =>
    simp only [hrd] at hdone
    simp at hdone
  | blocked =>
    simp only [hrd] at hdone
    simp at hdone
  | done d1 s1 =>
    simp only [hrd] at hdone
    obtain ⟨hd1, -⟩ := remove_duplicates_noprompt_done _ _ _ _ _ hrd
    obtain ⟨hd, -⟩ := runCandidates_noprompt_done _ _ _ _ _ hdone
    have hmem_d : ∀ q, q ∈ d ↔
        q ∈ entries.map (fun e => e.path) ∧
        (∀ g ∈ (get_duplicates entries).2, q ∉ g.tail) ∧
        q ∉ (get_duplicates entries).1 := by
      intro q
      rw [hd, hd1]
      simp only [List.mem_filter, decide_eq_true_eq]
      tauto
    have hsurv_mem : ∀ e, e ∈ entries.filter (fun e => decide (e.path ∈ d)) ↔
        e ∈ entries ∧ e.path ∈ d := by
      intro e
      simp [List.mem_filter]
    have hno_zero : ∀ e ∈ entries.filter (fun e => decide (e.path ∈ d)),
        statSize e ≠ 0 := by
      intro e he hz
      have h1 := (hsurv_mem e).mp he
      have hinv : e.path ∈ (get_duplicates entries).1 :=
        (mem_invalid_iff entries _).mpr ⟨e, h1.1, rfl, hz⟩
      exact ((hmem_d e.path).mp h1.2).2.2 hinv
    have hdistinct : ∀ e1 ∈ entries.filter (fun e => decide (e.path ∈ d)),
        ∀ e2 ∈ entries.filter (fun e => decide (e.path ∈ d)),
        e1 ≠ e2 → e1.content ≠ e2.content := by
      intro e1 h1 e2 h2 hne hc
      obtain ⟨g, hg, hp1, hp2⟩ := same_content_common_group entries hinj
        ((hsurv_mem e1).mp h1).1 ((hsurv_mem e2).mp h2).1 hne hc
      have hglen := ((mem_dups_iff entries g).mp hg).2
      cases g with
      | nil => cases hp1
      | cons p0 tl =>
        have hpd1 : e1.path ∈ d := ((hsurv_mem e1).mp h1).2
        have hpd2 : e2.path ∈ d := ((hsurv_mem e2).mp h2).2
        have hne_paths : e1.path ≠ e2.path :=
          fun h => hne (hinj e1 ((hsurv_mem e1).mp h1).1 e2 ((hsurv_mem e2).mp h2).1 h)
        have ht1 : e1.path ∉ tl := ((hmem_d e1.path).mp hpd1).2.1 _ hg
        have ht2 : e2.path ∉ tl := ((hmem_d e2.path).mp hpd2).2.1 _ hg
        rcases List.mem_cons.mp hp1 with hp1' | hp1'
        · rcases List.mem_cons.mp hp2 with hp2' | hp2'
          · exact hne_paths (hp1'.trans hp2'.symm)
          · exact ht2 hp2'
        · exact ht1 hp1'
    have hinv_nil : (get_duplicates (entries.filter (fun e => decide (e.path ∈ d)))).1 = [] := by
      rw [get_duplicates_fst, List.map_eq_nil_iff, List.filter_eq_nil_iff]
      intro e he hcontr
      have hmem := (List.mem_insertionSort mtimeLE).mp he
      simp only [Bool.not_eq_true', valid_file, decide_eq_false_iff_not, Nat.not_lt,
        Nat.le_zero] at hcontr
      exact hno_zero e hmem hcontr
    have hdups_nil : (get_duplicates (entries.filter (fun e => decide (e.path ∈ d)))).2 = [] := by
      rw [get_duplicates_snd, List.filter_eq_nil_iff]
      intro g hgmem hlen
      rw [List.mem_map] at hgmem
      obtain ⟨⟨k, ps⟩, hkv, rfl⟩ := hgmem
      have hps := (mem_buildHashDict_iff _ k ps).mp hkv
      rw [decide_eq_true_eq] at hlen
      have hsurv_paths_nodup :
          (((entries.filter (fun e => decide (e.path ∈ d))).insertionSort mtimeLE).map
            (fun e => e.path)).Nodup := by
        have hsub : ((entries.filter (fun e => decide (e.path ∈ d))).map
            (fun e => e.path)).Sublist (entries.map (fun e => e.path)) :=
          List.Sublist.map _ (List.filter_sublist entries)
        have hn1 := List.Nodup.sublist hsub hnd
        have hperm := List.perm_insertionSort mtimeLE
          (entries.filter (fun e => decide (e.path ∈ d)))
        exact ((hperm.map _).nodup_iff).mpr hn1
      have hps_nodup : ps.Nodup := by
        rw [hps.1]
        exact pathsOf_nodup _ k hsurv_paths_nodup
      obtain ⟨p, q, hpmem, hqmem, hpq⟩ : ∃ p q, p ∈ ps ∧ q ∈ ps ∧ p ≠ q := by
        cases ps with
        | nil => simp at hlen
        | cons a tl =>
          cases tl with
          | nil => simp at hlen
          | cons b tl2 =>
            refine ⟨a, b, List.mem_cons_self _ _,
              List.mem_cons_of_mem _ (List.mem_cons_self _ _), ?_⟩
            intro hab
            exact (List.nodup_cons.mp hps_nodup).1 (hab ▸ List.mem_cons_self _ _)
      rw [hps.1] at hpmem hqmem
      obtain ⟨f1, hf1, hf1k, hf1p⟩ := (mem_pathsOf _ _ _).mp hpmem
      obtain ⟨f2, hf2, hf2k, hf2p⟩ := (mem_pathsOf _ _ _).mp hqmem
      rw [List.mem_insertionSort] at hf1 hf2
      have hfne : f1 ≠ f2 := fun h => hpq (by rw [← hf1p, ← hf2p, h])
      exact hdistinct f1 hf1 f2 hf2 hfne (hf1k.trans hf2k.symm)
    exact Prod.ext hinv_nil hdups_nil

/-- Entries for checking idempotence on concrete input: one duplicate pair
and one zero-byte file. -/
def wEntriesC9 : List FileEntry := [⟨"a", [1], 0⟩, ⟨"b", [1], 1⟩, ⟨"c", [], 2⟩]

/-- Witness for C9: the concrete run completes with only `a` on disk, and
re-classifying the survivors reports nothing. -/
theorem pipeline_idempotent_witness :
    main_deletions wEntriesC9 [] = .done ["a"] [] ∧
    get_duplicates (wEntriesC9.filter (fun e => decide (e.path ∈ (["a"] : List String)))) =
      ([], []) :=
  ⟨by decide, pipeline_idempotent wEntriesC9 (by decide) ["a"] [] [] (by decide)⟩
